import Mathlib

/-!
Verification of the LDA topic-extraction pipeline in
`src/topic_lda/extractor.py` (class `LDAExtractor`).

Python strings are modelled as lists of code points (`List Char`); the
model covers the ASCII fragment, which is the only fragment the pipeline
can produce after its `[^a-z\s]` normalisation step.  Library calls are
translated as follows:

* `docx.Document(path).paragraphs` is file input; the model takes the
  parsed paragraph texts as the `filepath` field of the extractor.
* `sklearn.feature_extraction.text.CountVectorizer(max_df=0.85, min_df=2,
  stop_words="english")` is translated from its source semantics:
  lowercase, tokenize with the default token pattern `\b\w\w+\b`
  (maximal runs of word characters, of length at least 2), remove the
  built-in English stop words, build the alphabetically sorted
  vocabulary, raise `empty vocabulary` when no token exists, raise
  `max_df corresponds to < documents than min_df` when
  `0.85 * n_docs < 2` (the float `0.85 * n_docs` is modelled as the
  rational `17 * n / 20`), prune terms whose document frequency is
  below 2 or above `0.85 * n_docs`, and raise `After pruning, no terms
  remain` when nothing survives.
* `sklearn.decomposition.LatentDirichletAllocation(n_components=K,
  random_state=42, learning_method="batch").fit(dtm).components_` is a
  deterministic function of the matrix and `K` (the random seed and the
  optimisation schedule are fixed in the source).  Its numeric values
  are irrelevant to every claim, so the pipeline is parametrised by an
  arbitrary components function `fitC`; theorems assume only its shape
  (`K` rows, one weight per matrix column), which sklearn guarantees.
  sklearn validates `n_components >= 1` and performs no comparison of
  `n_components` with the number of rows of the matrix.
* `numpy.ndarray.argsort()` uses numpy's default quicksort kind, which
  runs a stable insertion sort for arrays of fewer than 16 elements:
  ascending by value, equal values in ascending index order.  The model
  sorts by the lexicographic order on (value, index), which is exactly
  that behaviour; it is faithful for rows of at most 16 weights and for
  all rows with pairwise distinct weights.
* `str.lower`, `str.strip`, `str.split`, `str.join`, `str.title` and
  `re.sub(r"[^a-z\s]", " ", ...)` are modelled character by character on
  the ASCII fragment (`\s` as the six ASCII whitespace characters).
-/

/-- A Python string, as its sequence of code points. -/
abbrev Str := List Char

/-- The 26 lowercase ASCII letters: the character class `[a-z]`. -/
def lowerAlpha : List Char := "abcdefghijklmnopqrstuvwxyz".data

/-- The 26 uppercase ASCII letters. -/
def upperAlpha : List Char := "ABCDEFGHIJKLMNOPQRSTUVWXYZ".data

/-- The ASCII digits. -/
def asciiDigits : List Char := "0123456789".data

/-- The six ASCII whitespace characters matched by Python's `\s` and
split on by `str.split()`. -/
def pyWsChars : List Char := [' ', '\t', '\n', '\r', '\x0b', '\x0c']

/-- Membership in `[a-z]`. -/
def isLowerAlphaC (c : Char) : Bool := lowerAlpha.contains c

/-- Membership in `[A-Z]`. -/
def isUpperAlphaC (c : Char) : Bool := upperAlpha.contains c

/-- ASCII whitespace test. -/
def pyIsWs (c : Char) : Bool := pyWsChars.contains c

/-- An ASCII letter (a "cased" character in `str.title`'s sense,
restricted to ASCII). -/
def isAlphaC (c : Char) : Bool := isLowerAlphaC c || isUpperAlphaC c

/-- Python's `\w` word-character class, ASCII fragment:
`[A-Za-z0-9_]`. -/
def isWordCharC (c : Char) : Bool :=
  isLowerAlphaC c || isUpperAlphaC c || asciiDigits.contains c || c = '_'

/-- Lowercasing of one character (`str.lower`, ASCII fragment). -/
def pyLowerChar (c : Char) : Char := ((upperAlpha.zip lowerAlpha).lookup c).getD c

/-- Uppercasing of one character (`str.upper`, ASCII fragment). -/
def pyUpperChar (c : Char) : Char := ((lowerAlpha.zip upperAlpha).lookup c).getD c

/-- `str.lower`. -/
def pyLower (s : Str) : Str := s.map pyLowerChar

/-- `str.strip()`: remove leading and trailing whitespace. -/
def pyStrip (s : Str) : Str :=
  ((s.dropWhile pyIsWs).reverse.dropWhile pyIsWs).reverse

/-- The maximal runs of characters satisfying `keep`, in order.  This is
the common core of Python's `str.split()` (runs of non-whitespace) and
of `re.findall` with the CountVectorizer token pattern (runs of word
characters). -/
def runsAcc (keep : Char → Bool) : Str → Str → List Str
  | cur, [] => if cur = [] then [] else [cur.reverse]
  | cur, c :: cs =>
      if keep c then runsAcc keep (c :: cur) cs
      else if cur = [] then runsAcc keep [] cs
      else cur.reverse :: runsAcc keep [] cs

def runs (keep : Char → Bool) (s : Str) : List Str := runsAcc keep [] s

/-- Python `str.split()` with no argument: split on whitespace,
discarding empty pieces. -/
def pySplitWs (s : Str) : List Str := runs (fun c => !pyIsWs c) s

/-- Python `" ".join(ws)`. -/
def joinSp : List Str → Str
  | [] => []
  | [w] => w
  | w :: ws => w ++ ' ' :: joinSp ws

/-- The character loop of Python's `str.title()`: a letter that follows
a non-cased character is uppercased, a letter that follows a cased
character is lowercased, all other characters pass through and reset
the state. -/
def titleLoop : Bool → Str → Str
  | _, [] => []
  | prevCased, c :: cs =>
      if isAlphaC c then
        (if prevCased then pyLowerChar c else pyUpperChar c) :: titleLoop true cs
      else c :: titleLoop false cs

/-- Python `str.title()` (ASCII fragment). -/
def pyTitle (s : Str) : Str := titleLoop false s

/-- Uppercase the first character of a word (the effect of `str.title()`
on an all-lowercase alphabetic word). -/
def capFirst : Str → Str
  | [] => []
  | c :: cs => pyUpperChar c :: cs

/-- The NLTK English stop-word list (`stopwords.words("english")`), the
set used by `LDAExtractor.preprocess`.  Contractions are written with
`\x27` for the apostrophe; after the `[^a-z\s]` substitution no token
can contain an apostrophe, so only the apostrophe-free entries are ever
matched. -/
def nltkStopwordsS : List String :=
  ["i", "me", "my", "myself", "we", "our", "ours", "ourselves", "you",
   "you\x27re", "you\x27ve", "you\x27ll", "you\x27d", "your", "yours",
   "yourself", "yourselves", "he", "him", "his", "himself", "she",
   "she\x27s", "her", "hers", "herself", "it", "it\x27s", "its", "itself",
   "they", "them", "their", "theirs", "themselves", "what", "which",
   "who", "whom", "this", "that", "that\x27ll", "these", "those", "am",
   "is", "are", "was", "were", "be", "been", "being", "have", "has",
   "had", "having", "do", "does", "did", "doing", "a", "an", "the",
   "and", "but", "if", "or", "because", "as", "until", "while", "of",
   "at", "by", "for", "with", "about", "against", "between", "into",
   "through", "during", "before", "after", "above", "below", "to",
   "from", "up", "down", "in", "out", "on", "off", "over", "under",
   "again", "further", "then", "once", "here", "there", "when", "where",
   "why", "how", "all", "any", "both", "each", "few", "more", "most",
   "other", "some", "such", "no", "nor", "not", "only", "own", "same",
   "so", "than", "too", "very", "s", "t", "can", "will", "just", "don",
   "don\x27t", "should", "should\x27ve", "now", "d", "ll", "m", "o",
   "re", "ve", "y", "ain", "aren", "aren\x27t", "couldn", "couldn\x27t",
   "didn", "didn\x27t", "doesn", "doesn\x27t", "hadn", "hadn\x27t",
   "hasn", "hasn\x27t", "haven", "haven\x27t", "isn", "isn\x27t", "ma",
   "mightn", "mightn\x27t", "mustn", "mustn\x27t", "needn",
   "needn\x27t", "shan", "shan\x27t", "shouldn", "shouldn\x27t",
   "wasn", "wasn\x27t", "weren", "weren\x27t", "won", "won\x27t",
   "wouldn", "wouldn\x27t"]

/-- The NLTK stop words as code-point lists. -/
def nltkStopwords : List Str := nltkStopwordsS.map String.data

/-- scikit-learn's built-in `ENGLISH_STOP_WORDS`, applied by
`CountVectorizer(stop_words="english")`. -/
def sklearnStopwordsS : List String :=
  ["a", "about", "above", "across", "after", "afterwards", "again",
   "against", "all", "almost", "alone", "along", "already", "also",
   "although", "always", "am", "among", "amongst", "amoungst", "amount",
   "an", "and", "another", "any", "anyhow", "anyone", "anything",
   "anyway", "anywhere", "are", "around", "as", "at", "back", "be",
   "became", "because", "become", "becomes", "becoming", "been",
   "before", "beforehand", "behind", "being", "below", "beside",
   "besides", "between", "beyond", "bill", "both", "bottom", "but",
   "by", "call", "can", "cannot", "cant", "co", "con", "could",
   "couldnt", "cry", "de", "describe", "detail", "do", "done", "down",
   "due", "during", "each", "eg", "eight", "either", "eleven", "else",
   "elsewhere", "empty", "enough", "etc", "even", "ever", "every",
   "everyone", "everything", "everywhere", "except", "few", "fifteen",
   "fifty", "fill", "find", "fire", "first", "five", "for", "former",
   "formerly", "forty", "found", "four", "from", "front", "full",
   "further", "get", "give", "go", "had", "has", "hasnt", "have", "he",
   "hence", "her", "here", "hereafter", "hereby", "herein", "hereupon",
   "hers", "herself", "him", "himself", "his", "how", "however",
   "hundred", "i", "ie", "if", "in", "inc", "indeed", "interest",
   "into", "is", "it", "its", "itself", "keep", "last", "latter",
   "latterly", "least", "less", "ltd", "made", "many", "may", "me",
   "meanwhile", "might", "mill", "mine", "more", "moreover", "most",
   "mostly", "move", "much", "must", "my", "myself", "name", "namely",
   "neither", "never", "nevertheless", "next", "nine", "no", "nobody",
   "none", "noone", "nor", "not", "nothing", "now", "nowhere", "of",
   "off", "often", "on", "once", "one", "only", "onto", "or", "other",
   "others", "otherwise", "our", "ours", "ourselves", "out", "over",
   "own", "part", "per", "perhaps", "please", "put", "rather", "re",
   "same", "see", "seem", "seemed", "seeming", "seems", "serious",
   "several", "she", "should", "show", "side", "since", "sincere",
   "six", "sixty", "so", "some", "somehow", "someone", "something",
   "sometime", "sometimes", "somewhere", "still", "such", "system",
   "take", "ten", "than", "that", "the", "their", "them", "themselves",
   "then", "thence", "there", "thereafter", "thereby", "therefore",
   "therein", "thereupon", "these", "they", "thick", "thin", "third",
   "this", "those", "though", "three", "through", "throughout", "thru",
   "thus", "to", "together", "too", "top", "toward", "towards",
   "twelve", "twenty", "two", "un", "under", "until", "up", "upon",
   "us", "very", "via", "was", "we", "well", "were", "what", "whatever",
   "when", "whence", "whenever", "where", "whereafter", "whereas",
   "whereby", "wherein", "whereupon", "wherever", "whether", "which",
   "while", "whither", "who", "whoever", "whole", "whom", "whose",
   "why", "will", "with", "within", "without", "would", "yet", "you",
   "your", "yours", "yourself", "yourselves"]

/-- The scikit-learn stop words as code-point lists. -/
def sklearnStopwords : List Str := sklearnStopwordsS.map String.data

/-- The mutable state of one `LDAExtractor` instance.  `filepath` holds
the paragraph texts that `docx.Document(self.filepath).paragraphs`
yields for the file at that path. -/
structure LDAExtractor where
  filepath : List Str
  num_topics : Nat
  words_per_topic : Nat
  paragraphs : List Str
  cleaned : List Str
  topics : List Str
deriving Repr, DecidableEq

/-- `LDAExtractor.__init__(filepath, num_topics=10, words_per_topic=5)`:
the three list fields start empty. -/
def LDAExtractor.init (filepath : List Str) (num_topics words_per_topic : Nat) :
    LDAExtractor :=
  { filepath := filepath, num_topics := num_topics,
    words_per_topic := words_per_topic,
    paragraphs := [], cleaned := [], topics := [] }

/-- The paragraph list built by `load_docx`: the comprehension
`[p.text.strip() for p in doc.paragraphs if len(p.text.strip()) > 30]`. -/
def loadParas (doc : List Str) : List Str :=
  doc.filterMap (fun p => if 30 < (pyStrip p).length then some (pyStrip p) else none)

/-- `LDAExtractor.load_docx`: reassigns `self.paragraphs`. -/
def LDAExtractor.load_docx (s : LDAExtractor) : LDAExtractor :=
  { s with paragraphs := loadParas s.filepath }

/-- The token list of one paragraph inside `preprocess`: lowercase,
substitute every character outside `[a-z\s]` by a space, split on
whitespace, drop NLTK stop words. -/
def paraTokens (p : Str) : List Str :=
  let txt := pyLower p
  let txt := txt.map (fun c => if isLowerAlphaC c || pyIsWs c then c else ' ')
  (pySplitWs txt).filter (fun w => !(decide (w ∈ nltkStopwords)))

/-- The `for para in self.paragraphs` loop of `preprocess`: appends the
joined tokens of each paragraph with more than 3 surviving tokens to the
accumulated `self.cleaned`. -/
def preprocessLoop (acc : List Str) : List Str → List Str
  | [] => acc
  | p :: ps =>
      preprocessLoop
        (if 3 < (paraTokens p).length then acc ++ [joinSp (paraTokens p)] else acc) ps

/-- `LDAExtractor.preprocess`. -/
def LDAExtractor.preprocess (s : LDAExtractor) : LDAExtractor :=
  { s with cleaned := preprocessLoop s.cleaned s.paragraphs }

/-- CountVectorizer's tokenizer: lowercase, then the default token
pattern `(?u)\b\w\w+\b`, i.e. the maximal runs of word characters that
have at least two characters. -/
def cvTokenize (d : Str) : List Str :=
  (runs isWordCharC (pyLower d)).filter (fun t => 2 ≤ t.length)

/-- CountVectorizer's analyzer: tokenizer followed by removal of the
built-in English stop words (`stop_words="english"`). -/
def cvAnalyze (d : Str) : List Str :=
  (cvTokenize d).filter (fun t => !(decide (t ∈ sklearnStopwords)))

/-- The vocabulary before document-frequency pruning: every distinct
analyzed token, sorted alphabetically (CountVectorizer sorts feature
names; `sorted` on distinct code-point lists is the lexicographic
order). -/
def rawVocabulary (docs : List Str) : List Str :=
  List.insertionSort (α := Str) (· ≤ ·) ((docs.map cvAnalyze).flatten.dedup)

/-- Document frequency of a term: the number of corpus entries whose
analyzed token list contains it (a matrix count is positive exactly when
the token occurs). -/
def docFreq (docs : List Str) (t : Str) : Nat :=
  (docs.filter (fun d => decide (t ∈ cvAnalyze d))).length

/-- The errors the pipeline can raise, in the order the source raises
them: the three `ValueError`s of `CountVectorizer.fit_transform` and the
parameter validation of `LatentDirichletAllocation` (which rejects
`n_components < 1` and nothing else). -/
inductive PipelineError where
  | emptyVocabulary
  | maxDfLtMinDf
  | afterPruning
  | invalidNComponents
deriving Repr, DecidableEq

/-- `CountVectorizer(max_df=0.85, min_df=2, stop_words="english")
.fit_transform(docs)` together with `get_feature_names_out()`: raises
`empty vocabulary` when no analyzed token exists; raises
`max_df corresponds to < documents than min_df` when
`0.85 * n_docs < 2` (as rationals: `17 * n < 40`); keeps the terms with
document frequency in `[2, 0.85 * n_docs]`; raises `After pruning, no
terms remain` when none survives; otherwise returns the term-document
count matrix (one row per document, one column per kept term) and the
kept terms. -/
def fit_transform (docs : List Str) :
    Except PipelineError (List (List Nat) × List Str) :=
  let vocab := rawVocabulary docs
  if vocab = [] then .error .emptyVocabulary
  else if 17 * docs.length < 40 then .error .maxDfLtMinDf
  else
    let names := vocab.filter
      (fun t => decide (2 ≤ docFreq docs t) &&
                decide (20 * docFreq docs t ≤ 17 * docs.length))
    if names = [] then .error .afterPruning
    else .ok (docs.map (fun d => names.map (fun t => (cvAnalyze d).count t)), names)

/-- Shape guarantee of `LatentDirichletAllocation.fit(dtm).components_`:
one row per requested topic, one weight per column of the matrix.  Every
theorem about the fitted model uses only this shape. -/
def FitShape (fitC : List (List Nat) → Nat → List (List ℚ)) : Prop :=
  ∀ dtm K, (fitC dtm K).length = K ∧
    ∀ row ∈ fitC dtm K, row.length = (dtm.headD []).length

/-- A concrete shape-correct components function, used to instantiate
the theorems on concrete inputs. -/
def constFit (dtm : List (List Nat)) (K : Nat) : List (List ℚ) :=
  List.replicate K (List.replicate (dtm.headD []).length 1)

/-- `LDAExtractor.vectorize_and_fit`: vectorizes `self.cleaned`, then
fits the LDA model.  `LatentDirichletAllocation` validates
`n_components >= 1` and performs no comparison of `n_components` with
the number of rows; with `random_state=42` and `learning_method="batch"`
the fitted `components_` matrix is the deterministic function `fitC` of
the matrix and `K`. -/
def LDAExtractor.vectorize_and_fit (fitC : List (List Nat) → Nat → List (List ℚ))
    (s : LDAExtractor) :
    Except PipelineError (List (List ℚ) × List (List Nat) × List Str) :=
  match fit_transform s.cleaned with
  | .error e => .error e
  | .ok (dtm, names) =>
      if s.num_topics < 1 then .error .invalidNComponents
      else .ok (fitC dtm s.num_topics, dtm, names)

/-- Ascending order on vocabulary indices by weight, equal weights in
ascending index order.  `ndarray.argsort()` (default quicksort kind)
runs a stable insertion sort for arrays of fewer than 16 elements, and
any stable ascending sort of the index range is exactly the sort by this
lexicographic order. -/
def ascLex (t : List ℚ) (i j : Nat) : Prop :=
  t.getD i 0 < t.getD j 0 ∨ (t.getD i 0 = t.getD j 0 ∧ i ≤ j)

instance (t : List ℚ) : DecidableRel (ascLex t) := fun i j =>
  inferInstanceAs (Decidable (_ ∨ _ ∧ _))

/-- `t.argsort()`: the indices `0 .. len(t)-1` sorted ascending by
weight (ties in ascending index order; exact for rows of at most 16
weights or with pairwise distinct weights, see `ascLex`). -/
def npArgsort (t : List ℚ) : List Nat :=
  List.insertionSort (ascLex t) (List.range t.length)

/-- Python's tail slice `l[-w:]` for a nonnegative `w`: the last `w`
elements, except that `l[-0:]` is the whole list. -/
def tailSlice {α : Type} (w : Nat) (l : List α) : List α :=
  if w = 0 then l else l.drop (l.length - w)

/-- The body of the `for t in lda.components_` loop of
`extract_topics`: `top_idxs = t.argsort()[-words_per_topic:]`,
`words = [feature_names[i] for i in top_idxs]`,
`" ".join(words[::-1]).title()`. -/
def topicTitle (wpt : Nat) (names : List Str) (t : List ℚ) : Str :=
  pyTitle (joinSp (((tailSlice wpt (npArgsort t)).map
    (fun i => names.getD i [])).reverse))

/-- `LDAExtractor.extract_topics`: appends one title per topic row to
`self.topics`, in row order. -/
def LDAExtractor.extract_topics (s : LDAExtractor) (components : List (List ℚ))
    (feature_names : List Str) : LDAExtractor :=
  { s with topics := s.topics ++
      components.map (topicTitle s.words_per_topic feature_names) }

/-- `LDAExtractor.run_pipeline`: the four stages in order; returns
`self.topics` (and the final instance state). -/
def LDAExtractor.run_pipeline (fitC : List (List Nat) → Nat → List (List ℚ))
    (s : LDAExtractor) :
    Except PipelineError (List Str × LDAExtractor) :=
  let s1 := (s.load_docx).preprocess
  match s1.vectorize_and_fit fitC with
  | .error e => .error e
  | .ok (components, _dtm, names) =>
      let s2 := s1.extract_topics components names
      .ok (s2.topics, s2)

/-- The cleaned corpus a fresh instance computes for a given document:
`self.cleaned` after `load_docx(); preprocess()` from the empty list. -/
def cleanedCorpus (doc : List Str) : List Str :=
  preprocessLoop [] (loadParas doc)

/-- Whether an `Except` result is a success. -/
def isOkE {ε α : Type} : Except ε α → Bool
  | .ok _ => true
  | .error _ => false

/-- The titles of a successful run (`[]` on failure). -/
def okTitles : Except PipelineError (List Str × LDAExtractor) → List Str
  | .ok (ts, _) => ts
  | .error _ => []

/-- The final instance state of a successful run (a dummy on failure). -/
def okState : Except PipelineError (List Str × LDAExtractor) → LDAExtractor
  | .ok (_, s) => s
  | .error _ => LDAExtractor.init [] 0 0

/-- The pruned vocabulary of a corpus (`[]` on vectorizer failure). -/
def vocabOf (docs : List Str) : List Str :=
  match fit_transform docs with
  | .ok (_, names) => names
  | .error _ => []

/-- The term-document matrix of a corpus (`[]` on vectorizer failure). -/
def dtmOf (docs : List Str) : List (List Nat) :=
  match fit_transform docs with
  | .ok (dtm, _) => dtm
  | .error _ => []

/-- A fresh instance: the three list fields are empty, as `__init__`
leaves them. -/
def Fresh (s : LDAExtractor) : Prop :=
  s.paragraphs = [] ∧ s.cleaned = [] ∧ s.topics = []

/-- Spec-side token list of one paragraph, following §4.2 of the
specification word for word: lowercase; replace every character outside
`[a-z]` and whitespace with a space; split on whitespace into tokens;
drop tokens present in the fixed English stop-word set.  (The
specification's wording coincides with the body of `preprocess`; the
refinement content of claim C6 is the append/ordering structure of the
loop.) -/
def specParaTokens (p : Str) : List Str :=
  (pySplitWs ((pyLower p).map
      (fun c => if isLowerAlphaC c || pyIsWs c then c else ' '))).filter
    (fun w => !(decide (w ∈ nltkStopwords)))

/-- Spec-side contribution of one paragraph to CleanedDocument: `some`
of the space-joined tokens when more than 3 tokens remain, `none`
otherwise (the paragraph is discarded). -/
def specNormalizePara (p : Str) : Option Str :=
  if 3 < (specParaTokens p).length then some (joinSp (specParaTokens p)) else none

/-- Descending order on vocabulary indices by weight, equal weights in
DESCENDING index order: the order in which the code actually emits the
selected terms (reverse of the tail of the ascending stable argsort). -/
def descLexHi (t : List ℚ) (i j : Nat) : Prop :=
  t.getD j 0 < t.getD i 0 ∨ (t.getD i 0 = t.getD j 0 ∧ j ≤ i)

instance (t : List ℚ) : DecidableRel (descLexHi t) := fun i j =>
  inferInstanceAs (Decidable (_ ∨ _ ∧ _))

/-- Descending order on vocabulary indices by weight, equal weights in
ASCENDING index order ("lowest index preferred"): the tie-breaking rule
claim C3 states. -/
def descLexLow (t : List ℚ) (i j : Nat) : Prop :=
  t.getD j 0 < t.getD i 0 ∨ (t.getD i 0 = t.getD j 0 ∧ i ≤ j)

instance (t : List ℚ) : DecidableRel (descLexLow t) := fun i j =>
  inferInstanceAs (Decidable (_ ∨ _ ∧ _))

/-- The title obtained from a topic row in the order the code emits:
the first `wpt` indices in descending weight order with equal weights in
descending index order, mapped to terms, space-joined, title-cased. -/
def specTitleHi (wpt : Nat) (names : List Str) (t : List ℚ) : Str :=
  pyTitle (joinSp (((List.insertionSort (descLexHi t) (List.range t.length)).take
    wpt).map (fun i => names.getD i [])))

/-- The title claim C3 describes: the first `wpt` indices in descending
weight order with equal weights broken by LOWEST vocabulary index first,
mapped to terms, space-joined, title-cased. -/
def specTitleLow (wpt : Nat) (names : List Str) (t : List ℚ) : Str :=
  pyTitle (joinSp (((List.insertionSort (descLexLow t) (List.range t.length)).take
    wpt).map (fun i => names.getD i [])))

/-- Example paragraph 1 (51 characters, 7 non-stop-word tokens). -/
def exP1 : Str := "zebra quartz mango falcon turquoise banana mountain".data

/-- Example paragraph 2 (47 characters, 7 non-stop-word tokens). -/
def exP2 : Str := "zebra quartz mango falcon crimson walnut harvest".data

/-- Example paragraph 3 (50 characters, 7 non-stop-word tokens). -/
def exP3 : Str := "lantern meadow copper violet harbor thistle engine".data

/-- An example parsed document: three long paragraphs; the cleaned
corpus has 3 entries and the pruned vocabulary is
`[falcon, mango, quartz, zebra]` (the terms occurring in 2 of the 3
cleaned documents). -/
def exDoc : List Str := [exP1, exP2, exP3]

/-- A parsed document whose only paragraph has 12 characters, so that no
paragraph survives the 30-character filter. -/
def exShortDoc : List Str := ["short phrase".data]

/-- A row of six equal weights. -/
def eqRow6 : List ℚ := [1, 1, 1, 1, 1, 1]

/-- Six two-letter feature names. -/
def names6 : List Str := ["aa", "bb", "cc", "dd", "ee", "ff"].map String.data

/-- Example paragraph 4 (49 characters, 7 non-stop-word tokens, sharing
no term with `exP1` or `exP3`). -/
def exP4 : Str := "pepper ginger saffron nutmeg cardamom clove basil".data

/-- A parsed document with exactly one long paragraph: the cleaned
corpus has 1 entry, so `0.85 * 1 < 2` and the vectorizer raises the
max_df/min_df `ValueError` before any term can qualify. -/
def exOneParaDoc : List Str := [exP1]

/-- A parsed document of three long paragraphs whose paragraphs share
no term: every candidate term has document frequency 1, so pruning
removes them all and the vectorizer raises the after-pruning
`ValueError`. -/
def exDistinctDoc : List Str := [exP1, exP3, exP4]

/-! ### Character-class lemmas -/

theorem mem_lowerAlpha_of_isLowerAlphaC {c : Char} (h : isLowerAlphaC c = true) :
    c ∈ lowerAlpha := by
  simpa [isLowerAlphaC] using h

theorem isLowerAlphaC_of_mem {c : Char} (h : c ∈ lowerAlpha) :
    isLowerAlphaC c = true := by
  simpa [isLowerAlphaC] using h

theorem pyLowerChar_of_lower {c : Char} (h : c ∈ lowerAlpha) : pyLowerChar c = c := by
  fin_cases h <;> decide

theorem pyLowerChar_space : pyLowerChar ' ' = ' ' := by decide

theorem pyUpperChar_mem_upper {c : Char} (h : c ∈ lowerAlpha) :
    pyUpperChar c ∈ upperAlpha := by
  fin_cases h <;> decide

theorem pyLowerChar_pyUpperChar {c : Char} (h : c ∈ lowerAlpha) :
    pyLowerChar (pyUpperChar c) = c := by
  fin_cases h <;> decide

theorem isAlphaC_of_lower {c : Char} (h : c ∈ lowerAlpha) : isAlphaC c = true := by
  fin_cases h <;> decide

theorem pyIsWs_false_of_lower {c : Char} (h : c ∈ lowerAlpha) : pyIsWs c = false := by
  fin_cases h <;> decide

theorem pyIsWs_false_of_upper {c : Char} (h : c ∈ upperAlpha) : pyIsWs c = false := by
  fin_cases h <;> decide

theorem isWordCharC_space : isWordCharC ' ' = false := by decide

theorem isAlphaC_space : isAlphaC ' ' = false := by decide

theorem pyIsWs_space : pyIsWs ' ' = true := by decide

/-! ### Lemmas about `runs` -/

theorem runs_nil (keep : Char → Bool) : runs keep [] = [] := rfl

theorem runs_cons_neg (keep : Char → Bool) (c : Char) (cs : Str) (h : keep c = false) :
    runs keep (c :: cs) = runs keep cs := by
  show runsAcc keep [] (c :: cs) = runsAcc keep [] cs
  rw [runsAcc.eq_def]
  simp [h]

theorem runsAcc_pos (keep : Char → Bool) (cs : Str) :
    ∀ cur : Str, cur ≠ [] →
      runsAcc keep cur cs =
        (cur.reverse ++ cs.takeWhile keep) :: runs keep (cs.dropWhile keep) := by
  induction cs with
  | nil =>
      intro cur hcur
      unfold runsAcc
      simp [hcur, runs_nil]
  | cons c cs ih =>
      intro cur hcur
      by_cases h : keep c
      · rw [List.takeWhile_cons_of_pos h, List.dropWhile_cons_of_pos h]
        rw [runsAcc.eq_def]
        simp only [h, if_true]
        rw [ih (c :: cur) (by simp)]
        simp
      · have hb : keep c = false := by simpa using h
        rw [List.takeWhile_cons_of_neg (by simp [hb]),
          List.dropWhile_cons_of_neg (by simp [hb])]
        rw [runsAcc.eq_def]
        simp only [hb, Bool.false_eq_true, if_false, if_neg hcur]
        rw [runs_cons_neg keep c cs hb]
        simp only [List.takeWhile_nil, List.append_nil]
        rfl

theorem runs_cons_pos (keep : Char → Bool) (c : Char) (cs : Str) (h : keep c = true) :
    runs keep (c :: cs) = (c :: cs.takeWhile keep) :: runs keep (cs.dropWhile keep) := by
  show runsAcc keep [] (c :: cs) = _
  unfold runsAcc
  rw [if_pos h, runsAcc_pos keep cs [c] (by simp)]
  simp

theorem mem_takeWhile_sub (p : Char → Bool) (l : Str) :
    ∀ c ∈ l.takeWhile p, p c = true ∧ c ∈ l := by
  induction l with
  | nil => simp
  | cons a as ih =>
      by_cases h : p a
      · rw [List.takeWhile_cons_of_pos h]
        intro c hc
        rcases List.mem_cons.mp hc with hc | hc
        · subst hc
          exact ⟨h, by simp⟩
        · exact ⟨(ih c hc).1, List.mem_cons_of_mem _ (ih c hc).2⟩
      · rw [List.takeWhile_cons_of_neg h]
        simp

theorem runs_pieces_bounded (keep : Char → Bool) :
    ∀ (n : Nat) (s : Str), s.length ≤ n →
      ∀ piece ∈ runs keep s, piece ≠ [] ∧ (∀ c ∈ piece, keep c = true ∧ c ∈ s) := by
  intro n
  induction n with
  | zero =>
      intro s hs
      have hnil : s = [] := List.length_eq_zero.mp (by omega)
      subst hnil
      simp [runs_nil]
  | succ n ih =>
      intro s hs
      cases s with
      | nil => simp [runs_nil]
      | cons c cs =>
          by_cases hkeep : keep c
          · rw [runs_cons_pos keep c cs hkeep]
            intro piece hp
            rcases List.mem_cons.mp hp with hp | hp
            · subst hp
              refine ⟨by simp, ?_⟩
              intro d hd
              rcases List.mem_cons.mp hd with hd | hd
              · subst hd
                exact ⟨hkeep, by simp⟩
              · exact ⟨(mem_takeWhile_sub keep cs d hd).1,
                  List.mem_cons_of_mem _ (mem_takeWhile_sub keep cs d hd).2⟩
            · have hrec := ih (cs.dropWhile keep)
                (by
                  have := (List.dropWhile_sublist keep (l := cs)).length_le
                  simp at hs
                  omega) piece hp
              refine ⟨hrec.1, ?_⟩
              intro d hd
              refine ⟨(hrec.2 d hd).1, List.mem_cons_of_mem _ ?_⟩
              exact (List.dropWhile_sublist keep).mem ((hrec.2 d hd).2)
          · have hb : keep c = false := by simpa using hkeep
            rw [runs_cons_neg keep c cs hb]
            intro piece hp
            have hrec := ih cs (by simp at hs; omega) piece hp
            exact ⟨hrec.1, fun d hd =>
              ⟨(hrec.2 d hd).1, List.mem_cons_of_mem _ ((hrec.2 d hd).2)⟩⟩

theorem runs_pieces (keep : Char → Bool) (s : Str) :
    ∀ piece ∈ runs keep s, piece ≠ [] ∧ (∀ c ∈ piece, keep c = true ∧ c ∈ s) :=
  runs_pieces_bounded keep s.length s (Nat.le_refl _)

theorem takeWhile_append_all {keep : Char → Bool} {u : Str}
    (h : ∀ c ∈ u, keep c = true) (v : Str) :
    (u ++ v).takeWhile keep = u ++ v.takeWhile keep := by
  induction u with
  | nil => simp
  | cons a as ih =>
      have ha : keep a = true := h a (by simp)
      simp only [List.cons_append, List.takeWhile_cons_of_pos ha]
      rw [ih (fun c hc => h c (List.mem_cons_of_mem _ hc))]

theorem dropWhile_append_all {keep : Char → Bool} {u : Str}
    (h : ∀ c ∈ u, keep c = true) (v : Str) :
    (u ++ v).dropWhile keep = v.dropWhile keep := by
  induction u with
  | nil => simp
  | cons a as ih =>
      have ha : keep a = true := h a (by simp)
      simp only [List.cons_append, List.dropWhile_cons_of_pos ha]
      exact ih (fun c hc => h c (List.mem_cons_of_mem _ hc))

theorem runs_all_keep {keep : Char → Bool} {u : Str} (hne : u ≠ [])
    (h : ∀ c ∈ u, keep c = true) : runs keep u = [u] := by
  obtain ⟨c, cs, rfl⟩ := List.exists_cons_of_ne_nil hne
  have hc : keep c = true := h c (by simp)
  have hcs : ∀ d ∈ cs, keep d = true := fun d hd => h d (List.mem_cons_of_mem _ hd)
  rw [runs_cons_pos keep c cs hc]
  rw [List.takeWhile_eq_self_iff.mpr hcs, List.dropWhile_eq_nil_iff.mpr (by exact_mod_cast hcs),
    runs_nil]

theorem runs_append_sep {keep : Char → Bool} {u : Str} {b : Char} (hne : u ≠ [])
    (h : ∀ c ∈ u, keep c = true) (hb : keep b = false) (t : Str) :
    runs keep (u ++ b :: t) = u :: runs keep t := by
  obtain ⟨c, cs, rfl⟩ := List.exists_cons_of_ne_nil hne
  have hc : keep c = true := h c (by simp)
  have hcs : ∀ d ∈ cs, keep d = true := fun d hd => h d (List.mem_cons_of_mem _ hd)
  rw [List.cons_append, runs_cons_pos keep c _ hc, takeWhile_append_all hcs,
    List.takeWhile_cons_of_neg (by simp [hb]), dropWhile_append_all hcs,
    List.dropWhile_cons_of_neg (by simp [hb]), runs_cons_neg keep b t hb]
  simp

theorem joinSp_nil : joinSp [] = [] := rfl

theorem joinSp_single (w : Str) : joinSp [w] = w := rfl

theorem joinSp_cons_cons (w v : Str) (ws : List Str) :
    joinSp (w :: v :: ws) = w ++ ' ' :: joinSp (v :: ws) := rfl

theorem runs_joinSp {keep : Char → Bool} {ws : List Str}
    (h : ∀ u ∈ ws, u ≠ [] ∧ ∀ c ∈ u, keep c = true) (hsp : keep ' ' = false) :
    runs keep (joinSp ws) = ws := by
  induction ws with
  | nil => simp [joinSp_nil, runs_nil]
  | cons w ws ih =>
      cases ws with
      | nil =>
          rw [joinSp_single]
          exact runs_all_keep (h w (by simp)).1 (h w (by simp)).2
      | cons v vs =>
          rw [joinSp_cons_cons,
            runs_append_sep (h w (by simp)).1 (h w (by simp)).2 hsp,
            ih (fun u hu => h u (List.mem_cons_of_mem _ hu))]

/-! ### Lemmas about `titleLoop` and `pyTitle` -/

theorem titleLoop_true_lower {cs : Str} (h : ∀ c ∈ cs, c ∈ lowerAlpha) (s : Str) :
    titleLoop true (cs ++ s) = cs ++ titleLoop true s := by
  induction cs with
  | nil => simp
  | cons a as ih =>
      have ha : a ∈ lowerAlpha := h a (by simp)
      have ih2 := ih (fun c hc => h c (List.mem_cons_of_mem _ hc))
      simp [titleLoop, isAlphaC_of_lower ha, pyLowerChar_of_lower ha, ih2]

theorem titleLoop_false_word {u : Str} (hne : u ≠ [])
    (h : ∀ c ∈ u, c ∈ lowerAlpha) (s : Str) :
    titleLoop false (u ++ s) = capFirst u ++ titleLoop true s := by
  obtain ⟨c, cs, rfl⟩ := List.exists_cons_of_ne_nil hne
  have hc : c ∈ lowerAlpha := h c (by simp)
  have hcs := titleLoop_true_lower (fun d hd => h d (List.mem_cons_of_mem _ hd)) s
  simp [titleLoop, isAlphaC_of_lower hc, capFirst, hcs]

theorem titleLoop_true_space (s : Str) :
    titleLoop true (' ' :: s) = ' ' :: titleLoop false s := by
  simp [titleLoop, isAlphaC_space]

theorem titleLoop_nil (b : Bool) : titleLoop b [] = [] := rfl

theorem pyTitle_joinSp {ws : List Str}
    (h : ∀ u ∈ ws, u ≠ [] ∧ ∀ c ∈ u, c ∈ lowerAlpha) :
    pyTitle (joinSp ws) = joinSp (ws.map capFirst) := by
  unfold pyTitle
  induction ws with
  | nil => simp [joinSp_nil, titleLoop_nil]
  | cons w ws ih =>
      cases ws with
      | nil =>
          rw [joinSp_single, List.map_cons, List.map_nil, joinSp_single]
          have := titleLoop_false_word (h w (by simp)).1 (h w (by simp)).2 []
          simpa [titleLoop_nil] using this
      | cons v vs =>
          rw [joinSp_cons_cons,
            titleLoop_false_word (h w (by simp)).1 (h w (by simp)).2,
            titleLoop_true_space, List.map_cons]
          rw [ih (fun u hu => h u (List.mem_cons_of_mem _ hu))]
          rw [List.map_cons, joinSp_cons_cons]

theorem capFirst_ne_nil {u : Str} (h : u ≠ []) : capFirst u ≠ [] := by
  obtain ⟨c, cs, rfl⟩ := List.exists_cons_of_ne_nil h
  simp [capFirst]

theorem capFirst_chars {u : Str} (hne : u ≠ []) (h : ∀ c ∈ u, c ∈ lowerAlpha) :
    ∀ c ∈ capFirst u, c ∈ lowerAlpha ∨ c ∈ upperAlpha := by
  obtain ⟨a, as, rfl⟩ := List.exists_cons_of_ne_nil hne
  intro c hc
  rcases List.mem_cons.mp hc with hc | hc
  · subst hc
    exact Or.inr (pyUpperChar_mem_upper (h a (by simp)))
  · exact Or.inl (h c (List.mem_cons_of_mem _ hc))

theorem pyLower_capFirst {u : Str} (hne : u ≠ []) (h : ∀ c ∈ u, c ∈ lowerAlpha) :
    pyLower (capFirst u) = u := by
  obtain ⟨a, as, rfl⟩ := List.exists_cons_of_ne_nil hne
  have hrest : ∀ c ∈ as, pyLowerChar c = c :=
    fun c hc => pyLowerChar_of_lower (h c (List.mem_cons_of_mem _ hc))
  simp only [capFirst, pyLower, List.map_cons,
    pyLowerChar_pyUpperChar (h a (by simp)), List.cons.injEq, true_and]
  rw [List.map_congr_left hrest]
  simp

/-! ### Generic list lemmas -/

theorem getD_mem {α : Type} {l : List α} {i : Nat} (d : α) (h : i < l.length) :
    l.getD i d ∈ l := by
  rw [List.getD_eq_getElem?_getD, List.getElem?_eq_getElem h]
  exact List.getElem_mem h

theorem map_getD {α β : Type} (f : α → β) {l : List α} {i : Nat} (d₁ : β) (d₂ : α)
    (h : i < l.length) : (l.map f).getD i d₁ = f (l.getD i d₂) := by
  rw [List.getD_eq_getElem?_getD, List.getD_eq_getElem?_getD,
    List.getElem?_eq_getElem h, List.getElem?_eq_getElem (by simpa using h)]
  simp

theorem map_getD_range {α : Type} (l : List α) (d : α) :
    (List.range l.length).map (fun i => l.getD i d) = l := by
  induction l with
  | nil => simp
  | cons a as ih =>
      rw [List.length_cons, List.range_succ_eq_map, List.map_cons, List.map_map]
      have hcong : ∀ i ∈ List.range as.length,
          ((fun i => (a :: as).getD i d) ∘ Nat.succ) i = as.getD i d := by
        intro i _
        simp [Function.comp]
      rw [List.map_congr_left hcong, ih]
      simp

theorem reverse_drop_eq_take_reverse {α : Type} (l : List α) (n : Nat) :
    (l.drop n).reverse = l.reverse.take (l.length - n) := by
  have hsplit : l.reverse = (l.drop n).reverse ++ (l.take n).reverse := by
    rw [← List.reverse_append, List.take_append_drop]
  rw [hsplit, List.take_left' (by simp)]

theorem tailSlice_sub {α : Type} (w : Nat) (l : List α) : ∀ x ∈ tailSlice w l, x ∈ l := by
  unfold tailSlice
  by_cases h : w = 0
  · simp [h]
  · simp only [h, if_false]
    intro x hx
    exact (List.drop_sublist _ _).mem hx

theorem tailSlice_length {α : Type} {w : Nat} (hw : 1 ≤ w) (l : List α) :
    (tailSlice w l).length = l.length - (l.length - w) := by
  unfold tailSlice
  have : ¬(w = 0) := by omega
  simp [this]

/-! ### Lemmas about `preprocessLoop` and the cleaned corpus -/

theorem preprocessLoop_append (acc : List Str) (ps : List Str) :
    preprocessLoop acc ps = acc ++ preprocessLoop [] ps := by
  induction ps generalizing acc with
  | nil => simp [preprocessLoop]
  | cons p ps ih =>
      simp only [preprocessLoop]
      by_cases h : 3 < (paraTokens p).length
      · simp only [if_pos h, List.nil_append]
        rw [ih (acc ++ [joinSp (paraTokens p)]), ih ([joinSp (paraTokens p)])]
        simp
      · simp only [if_neg h]
        exact ih acc

theorem preprocessLoop_eq_filterMap (ps : List Str) :
    preprocessLoop [] ps = ps.filterMap
      (fun p => if 3 < (paraTokens p).length then some (joinSp (paraTokens p))
                else none) := by
  induction ps with
  | nil => simp [preprocessLoop]
  | cons p ps ih =>
      simp only [preprocessLoop, List.filterMap_cons]
      by_cases h : 3 < (paraTokens p).length
      · simp only [if_pos h, List.nil_append]
        rw [preprocessLoop_append, ih]
        simp
      · simp only [if_neg h]
        exact ih

theorem paraTokens_chars (p : Str) :
    ∀ w ∈ paraTokens p, w ≠ [] ∧ ∀ c ∈ w, c ∈ lowerAlpha := by
  intro w hw
  unfold paraTokens at hw
  simp only [List.mem_filter] at hw
  obtain ⟨hw, _⟩ := hw
  have hpieces := runs_pieces (fun c => !pyIsWs c) _ w hw
  refine ⟨hpieces.1, ?_⟩
  intro c hc
  have hc2 := hpieces.2 c hc
  have hnw : pyIsWs c = false := by
    have := hc2.1
    simpa using this
  have hmem := hc2.2
  simp only [List.mem_map] at hmem
  obtain ⟨c₀, _, hc₀⟩ := hmem
  by_cases hcase : (isLowerAlphaC c₀ || pyIsWs c₀) = true
  · rw [if_pos hcase] at hc₀
    subst hc₀
    rcases Bool.or_eq_true_iff.mp hcase with hl | hws
    · exact mem_lowerAlpha_of_isLowerAlphaC hl
    · simp [hws] at hnw
  · rw [if_neg hcase] at hc₀
    rw [← hc₀] at hnw
    exact absurd hnw (by decide)

theorem mem_joinSp {c : Char} {ws : List Str} (h : c ∈ joinSp ws) :
    c = ' ' ∨ ∃ w ∈ ws, c ∈ w := by
  induction ws with
  | nil => simp [joinSp_nil] at h
  | cons w ws ih =>
      cases ws with
      | nil =>
          rw [joinSp_single] at h
          exact Or.inr ⟨w, by simp, h⟩
      | cons v vs =>
          rw [joinSp_cons_cons] at h
          rcases List.mem_append.mp h with h | h
          · exact Or.inr ⟨w, by simp, h⟩
          · rcases List.mem_cons.mp h with h | h
            · exact Or.inl h
            · rcases ih h with h | ⟨u, hu, hc⟩
              · exact Or.inl h
              · exact Or.inr ⟨u, List.mem_cons_of_mem _ hu, hc⟩

theorem cleaned_chars (ps : List Str) :
    ∀ d ∈ preprocessLoop [] ps, ∀ c ∈ d, c ∈ lowerAlpha ∨ c = ' ' := by
  intro d hd c hc
  rw [preprocessLoop_eq_filterMap] at hd
  obtain ⟨p, _, hp⟩ := List.mem_filterMap.mp hd
  by_cases h : 3 < (paraTokens p).length
  · rw [if_pos h] at hp
    obtain rfl : joinSp (paraTokens p) = d := Option.some.inj hp
    rcases mem_joinSp hc with h' | ⟨w, hw, hcw⟩
    · exact Or.inr h'
    · exact Or.inl ((paraTokens_chars p w hw).2 c hcw)
  · rw [if_neg h] at hp
    cases hp

theorem pyLower_id_of_clean {d : Str} (h : ∀ c ∈ d, c ∈ lowerAlpha ∨ c = ' ') :
    pyLower d = d := by
  unfold pyLower
  have : ∀ c ∈ d, pyLowerChar c = c := by
    intro c hc
    rcases h c hc with h' | h'
    · exact pyLowerChar_of_lower h'
    · rw [h']
      exact pyLowerChar_space
  rw [List.map_congr_left this]
  simp

theorem fit_transform_ok {docs : List Str} {dtm : List (List Nat)} {names : List Str}
    (h : fit_transform docs = .ok (dtm, names)) :
    names = (rawVocabulary docs).filter
      (fun t => decide (2 ≤ docFreq docs t) &&
                decide (20 * docFreq docs t ≤ 17 * docs.length)) ∧
    names ≠ [] ∧ 40 ≤ 17 * docs.length ∧
    dtm = docs.map (fun d => names.map (fun t => (cvAnalyze d).count t)) := by
  unfold fit_transform at h
  by_cases h1 : rawVocabulary docs = []
  · rw [if_pos h1] at h
    cases h
  · rw [if_neg h1] at h
    by_cases h2 : 17 * docs.length < 40
    · rw [if_pos h2] at h
      cases h
    · rw [if_neg h2] at h
      by_cases h3 : (rawVocabulary docs).filter
          (fun t => decide (2 ≤ docFreq docs t) &&
                    decide (20 * docFreq docs t ≤ 17 * docs.length)) = []
      · rw [if_pos h3] at h
        cases h
      · rw [if_neg h3] at h
        obtain ⟨hdtm, hnames⟩ := Prod.mk.injEq _ _ _ _ ▸ Except.ok.inj h
        subst hnames
        exact ⟨rfl, h3, by omega, hdtm.symm⟩

theorem mem_rawVocabulary {docs : List Str} {nm : Str} (h : nm ∈ rawVocabulary docs) :
    ∃ d ∈ docs, nm ∈ cvAnalyze d := by
  unfold rawVocabulary at h
  rw [(List.perm_insertionSort _ _).mem_iff, List.mem_dedup] at h
  obtain ⟨l, hl, hnm⟩ := List.mem_flatten.mp h
  obtain ⟨d, hd, rfl⟩ := List.mem_map.mp hl
  exact ⟨d, hd, hnm⟩

theorem vocab_chars {docs : List Str}
    (hdocs : ∀ d ∈ docs, ∀ c ∈ d, c ∈ lowerAlpha ∨ c = ' ')
    {nm : Str} (h : nm ∈ rawVocabulary docs) :
    nm ≠ [] ∧ (∀ c ∈ nm, c ∈ lowerAlpha) := by
  obtain ⟨d, hd, hnm⟩ := mem_rawVocabulary h
  unfold cvAnalyze at hnm
  have hnm := (List.mem_filter.mp hnm).1
  unfold cvTokenize at hnm
  have hnm := (List.mem_filter.mp hnm).1
  rw [pyLower_id_of_clean (hdocs d hd)] at hnm
  have hpieces := runs_pieces isWordCharC d nm hnm
  refine ⟨hpieces.1, ?_⟩
  intro c hc
  rcases hdocs d hd c (hpieces.2 c hc).2 with h' | h'
  · exact h'
  · exfalso
    have := (hpieces.2 c hc).1
    rw [h'] at this
    exact absurd this (by decide)

/-! ### Order lemmas for the argsort model -/

theorem ascLex_total (t : List ℚ) : IsTotal Nat (ascLex t) := by
  constructor
  intro i j
  rcases lt_trichotomy (t.getD i 0) (t.getD j 0) with h | h | h
  · exact Or.inl (Or.inl h)
  · rcases Nat.le_total i j with hij | hij
    · exact Or.inl (Or.inr ⟨h, hij⟩)
    · exact Or.inr (Or.inr ⟨h.symm, hij⟩)
  · exact Or.inr (Or.inl h)

theorem ascLex_trans (t : List ℚ) : IsTrans Nat (ascLex t) := by
  constructor
  intro a b c hab hbc
  rcases hab with hab | ⟨hab, hab2⟩
  · rcases hbc with hbc | ⟨hbc, _⟩
    · exact Or.inl (hab.trans hbc)
    · exact Or.inl (hbc ▸ hab)
  · rcases hbc with hbc | ⟨hbc, hbc2⟩
    · exact Or.inl (hab ▸ hbc)
    · exact Or.inr ⟨hab.trans hbc, hab2.trans hbc2⟩

theorem descLexHi_total (t : List ℚ) : IsTotal Nat (descLexHi t) := by
  constructor
  intro i j
  rcases lt_trichotomy (t.getD i 0) (t.getD j 0) with h | h | h
  · exact Or.inr (Or.inl h)
  · rcases Nat.le_total i j with hij | hij
    · exact Or.inr (Or.inr ⟨h.symm, hij⟩)
    · exact Or.inl (Or.inr ⟨h, hij⟩)
  · exact Or.inl (Or.inl h)

theorem descLexHi_trans (t : List ℚ) : IsTrans Nat (descLexHi t) := by
  constructor
  intro a b c hab hbc
  rcases hab with hab | ⟨hab, hab2⟩
  · rcases hbc with hbc | ⟨hbc, _⟩
    · exact Or.inl (hbc.trans hab)
    · exact Or.inl (hbc ▸ hab)
  · rcases hbc with hbc | ⟨hbc, hbc2⟩
    · exact Or.inl (hab ▸ hbc)
    · exact Or.inr ⟨hab.trans hbc, hbc2.trans hab2⟩

theorem descLexHi_antisymm (t : List ℚ) : IsAntisymm Nat (descLexHi t) := by
  constructor
  intro i j hij hji
  rcases hij with hij | ⟨hij, hij2⟩
  · rcases hji with hji | ⟨hji, _⟩
    · exact absurd (hij.trans hji) (lt_irrefl _)
    · exact absurd hij (hji ▸ lt_irrefl _)
  · rcases hji with hji | ⟨hji, hji2⟩
    · exact absurd hji (hij ▸ lt_irrefl _)
    · exact Nat.le_antisymm hji2 hij2

theorem npArgsort_sorted (t : List ℚ) : List.Sorted (ascLex t) (npArgsort t) := by
  haveI := ascLex_total t
  haveI := ascLex_trans t
  exact List.sorted_insertionSort (ascLex t) (List.range t.length)

theorem npArgsort_perm (t : List ℚ) : (npArgsort t).Perm (List.range t.length) :=
  List.perm_insertionSort (ascLex t) (List.range t.length)

theorem npArgsort_length (t : List ℚ) : (npArgsort t).length = t.length := by
  unfold npArgsort
  rw [List.length_insertionSort, List.length_range]

theorem npArgsort_mem_lt {t : List ℚ} {i : Nat} (h : i ∈ npArgsort t) : i < t.length := by
  have := (npArgsort_perm t).mem_iff.mp h
  exact List.mem_range.mp this

theorem npArgsort_reverse (t : List ℚ) :
    (npArgsort t).reverse =
      List.insertionSort (descLexHi t) (List.range t.length) := by
  haveI := descLexHi_total t
  haveI := descLexHi_trans t
  haveI := descLexHi_antisymm t
  have hperm : ((npArgsort t).reverse).Perm
      (List.insertionSort (descLexHi t) (List.range t.length)) :=
    ((npArgsort t).reverse_perm.trans (npArgsort_perm t)).trans
      (List.perm_insertionSort _ _).symm
  have hs1 : List.Sorted (descLexHi t) (npArgsort t).reverse := by
    have hs : List.Pairwise (ascLex t) (npArgsort t) := npArgsort_sorted t
    have h2 : List.Pairwise (fun a b => ascLex t b a) (npArgsort t).reverse :=
      List.pairwise_reverse.mpr hs
    refine h2.imp ?_
    intro a b hab
    rcases hab with hab | ⟨hab, hab2⟩
    · exact Or.inl hab
    · exact Or.inr ⟨hab.symm, hab2⟩
  have hs2 : List.Sorted (descLexHi t)
      (List.insertionSort (descLexHi t) (List.range t.length)) :=
    List.sorted_insertionSort _ _
  exact @List.eq_of_perm_of_sorted _ (descLexHi t) (descLexHi_antisymm t) _ _
    hperm hs1 hs2

theorem tailSlice_npArgsort_reverse {w : Nat} (hw : 1 ≤ w) (t : List ℚ) :
    (tailSlice w (npArgsort t)).reverse =
      (List.insertionSort (descLexHi t) (List.range t.length)).take w := by
  have hlen : (npArgsort t).length = t.length := npArgsort_length t
  have hBlen : (List.insertionSort (descLexHi t) (List.range t.length)).length
      = t.length := by
    rw [List.length_insertionSort, List.length_range]
  unfold tailSlice
  have hw0 : ¬(w = 0) := by omega
  rw [if_neg hw0, reverse_drop_eq_take_reverse, npArgsort_reverse, hlen]
  by_cases hcase : w ≤ t.length
  · have h1 : t.length - (t.length - w) = w := by omega
    rw [h1]
  · have h1 : t.length - (t.length - w) = t.length := by omega
    rw [h1, List.take_of_length_le (by rw [hBlen]),
      List.take_of_length_le (by rw [hBlen]; omega)]

/-! ### Unfolding lemmas for the pipeline -/

theorem run_pipeline_error (fitC : List (List Nat) → Nat → List (List ℚ))
    (s : LDAExtractor) (e : PipelineError)
    (h : fit_transform (preprocessLoop s.cleaned (loadParas s.filepath)) = .error e) :
    s.run_pipeline fitC = .error e := by
  unfold LDAExtractor.run_pipeline LDAExtractor.vectorize_and_fit
    LDAExtractor.preprocess LDAExtractor.load_docx
  simp only [h]

theorem run_pipeline_invalidK (fitC : List (List Nat) → Nat → List (List ℚ))
    (s : LDAExtractor) (dtm : List (List Nat)) (names : List Str)
    (h : fit_transform (preprocessLoop s.cleaned (loadParas s.filepath)) = .ok (dtm, names))
    (hK : s.num_topics = 0) :
    s.run_pipeline fitC = .error .invalidNComponents := by
  unfold LDAExtractor.run_pipeline LDAExtractor.vectorize_and_fit
    LDAExtractor.preprocess LDAExtractor.load_docx
  simp only [h, hK]
  rfl

theorem run_pipeline_ok (fitC : List (List Nat) → Nat → List (List ℚ))
    (s : LDAExtractor) (dtm : List (List Nat)) (names : List Str)
    (h : fit_transform (preprocessLoop s.cleaned (loadParas s.filepath)) = .ok (dtm, names))
    (hK : 1 ≤ s.num_topics) :
    s.run_pipeline fitC = .ok
      (s.topics ++ (fitC dtm s.num_topics).map (topicTitle s.words_per_topic names),
       { s with paragraphs := loadParas s.filepath,
                cleaned := preprocessLoop s.cleaned (loadParas s.filepath),
                topics := s.topics ++ (fitC dtm s.num_topics).map
                  (topicTitle s.words_per_topic names) }) := by
  unfold LDAExtractor.run_pipeline LDAExtractor.vectorize_and_fit
    LDAExtractor.preprocess LDAExtractor.load_docx LDAExtractor.extract_topics
  simp only [h]
  have : ¬(s.num_topics < 1) := by omega
  simp only [this, if_false]

theorem run_pipeline_ok_inv (fitC : List (List Nat) → Nat → List (List ℚ))
    (s : LDAExtractor) (h : isOkE (s.run_pipeline fitC) = true) :
    ∃ dtm names,
      fit_transform (preprocessLoop s.cleaned (loadParas s.filepath)) = .ok (dtm, names) ∧
      1 ≤ s.num_topics := by
  rcases hft : fit_transform (preprocessLoop s.cleaned (loadParas s.filepath))
    with e | ⟨dtm, names⟩
  · rw [run_pipeline_error fitC s e hft] at h
    simp [isOkE] at h
  · by_cases hK : s.num_topics = 0
    · rw [run_pipeline_invalidK fitC s dtm names hft hK] at h
      simp [isOkE] at h
    · exact ⟨dtm, names, rfl, by omega⟩

theorem init_cleanedCorpus (doc : List Str) (K w : Nat) :
    preprocessLoop (LDAExtractor.init doc K w).cleaned
      (loadParas (LDAExtractor.init doc K w).filepath) = cleanedCorpus doc := rfl

theorem constFit_shape : FitShape constFit := by
  intro dtm K
  refine ⟨by simp [constFit], ?_⟩
  intro row hrow
  rw [List.eq_of_mem_replicate hrow]
  simp [constFit]

/-! ### Well-formedness of one topic title -/

theorem topicTitle_words {w : Nat} {names : List Str} {row : List ℚ}
    (hw : 1 ≤ w) (hne : names ≠ []) (hlen : row.length = names.length)
    (hnm : ∀ nm ∈ names, nm ≠ [] ∧ ∀ c ∈ nm, c ∈ lowerAlpha) :
    ∃ sel : List Str,
      topicTitle w names row = joinSp (sel.map capFirst) ∧
      pySplitWs (topicTitle w names row) = sel.map capFirst ∧
      (∀ u ∈ sel, u ∈ names) ∧
      sel.length = row.length - (row.length - w) ∧
      sel.Perm ((tailSlice w (npArgsort row)).map (fun i => names.getD i [])) := by
  refine ⟨((tailSlice w (npArgsort row)).map (fun i => names.getD i [])).reverse,
    ?_, ?_, ?_, ?_, List.reverse_perm _⟩
  case refine_3 =>
    intro u hu
    rw [List.mem_reverse] at hu
    obtain ⟨i, hi, rfl⟩ := List.mem_map.mp hu
    have hilt : i < names.length := by
      rw [← hlen]
      exact npArgsort_mem_lt (tailSlice_sub w _ i hi)
    exact getD_mem [] hilt
  case refine_4 =>
    rw [List.length_reverse, List.length_map, tailSlice_length hw, npArgsort_length]
  all_goals
    have hsel : ∀ u ∈ ((tailSlice w (npArgsort row)).map
        (fun i => names.getD i [])).reverse, u ≠ [] ∧ ∀ c ∈ u, c ∈ lowerAlpha := by
      intro u hu
      rw [List.mem_reverse] at hu
      obtain ⟨i, hi, rfl⟩ := List.mem_map.mp hu
      have hilt : i < names.length := by
        rw [← hlen]
        exact npArgsort_mem_lt (tailSlice_sub w _ i hi)
      exact hnm _ (getD_mem [] hilt)
  case refine_1 =>
    unfold topicTitle
    exact pyTitle_joinSp hsel
  case refine_2 =>
    unfold topicTitle
    rw [pyTitle_joinSp hsel]
    unfold pySplitWs
    apply runs_joinSp
    · intro u hu
      obtain ⟨v, hv, rfl⟩ := List.mem_map.mp hu
      refine ⟨capFirst_ne_nil (hsel v hv).1, ?_⟩
      intro c hc
      rcases capFirst_chars (hsel v hv).1 (hsel v hv).2 c hc with h' | h'
      · simp [pyIsWs_false_of_lower h']
      · simp [pyIsWs_false_of_upper h']
    · decide

theorem loadParas_eq (doc : List Str) :
    loadParas doc = (doc.map pyStrip).filter (fun q => decide (30 < q.length)) := by
  unfold loadParas
  induction doc with
  | nil => simp
  | cons p ps ih =>
      rw [List.filterMap_cons, List.map_cons, List.filter_cons]
      by_cases h : 30 < (pyStrip p).length
      · simp [h, ih]
      · simp [h, ih]

/-- C7: every paragraph retained by `load_docx` has (trimmed) length
strictly greater than 30, every paragraph whose trimmed length is at
most 30 is excluded, and the retained list is exactly the stripped
paragraph texts of length above 30, in source order. -/
theorem lda_c7 (s : LDAExtractor) :
    (∀ q ∈ (s.load_docx).paragraphs, 30 < q.length) ∧
    (∀ p ∈ s.filepath, (pyStrip p).length ≤ 30 →
      pyStrip p ∉ (s.load_docx).paragraphs) ∧
    (s.load_docx).paragraphs =
      (s.filepath.map pyStrip).filter (fun q => decide (30 < q.length)) := by
  have hpar : (s.load_docx).paragraphs =
      (s.filepath.map pyStrip).filter (fun q => decide (30 < q.length)) := by
    show loadParas s.filepath = _
    exact loadParas_eq s.filepath
  have hmem : ∀ q ∈ (s.load_docx).paragraphs, 30 < q.length := by
    intro q hq
    rw [hpar] at hq
    have := (List.mem_filter.mp hq).2
    exact of_decide_eq_true this
  refine ⟨hmem, ?_, hpar⟩
  intro p _ hle hmem2
  exact absurd (hmem _ hmem2) (by omega)

/-- Witness for C7 on the example document. -/
theorem lda_c7_witness :
    ((LDAExtractor.init exDoc 10 5).load_docx).paragraphs =
      (exDoc.map pyStrip).filter (fun q => decide (30 < q.length)) :=
  (lda_c7 (LDAExtractor.init exDoc 10 5)).2.2

/-- C6: `preprocess` appends to `self.cleaned`, in source paragraph
order, exactly the normalised text of each paragraph that keeps more
than 3 tokens after lowercasing, `[^a-z\s]` substitution, whitespace
splitting and stop-word removal; a paragraph with at most 3 surviving
tokens contributes nothing. -/
theorem lda_c6 (s : LDAExtractor) :
    (s.preprocess).cleaned = s.cleaned ++ s.paragraphs.filterMap specNormalizePara ∧
    (∀ p : Str, (∃ e, specNormalizePara p = some e) ↔ 3 < (specParaTokens p).length) ∧
    (∀ p e, specNormalizePara p = some e → e = joinSp (specParaTokens p)) := by
  refine ⟨?_, ?_, ?_⟩
  · show preprocessLoop s.cleaned s.paragraphs = _
    rw [preprocessLoop_append, preprocessLoop_eq_filterMap]
    rfl
  · intro p
    constructor
    · intro ⟨e, he⟩
      unfold specNormalizePara at he
      by_cases h : 3 < (specParaTokens p).length
      · exact h
      · rw [if_neg h] at he
        cases he
    · intro h
      exact ⟨joinSp (specParaTokens p), by unfold specNormalizePara; rw [if_pos h]⟩
  · intro p e he
    unfold specNormalizePara at he
    by_cases h : 3 < (specParaTokens p).length
    · rw [if_pos h] at he
      exact (Option.some.inj he).symm
    · rw [if_neg h] at he
      cases he

/-- Witness for C6 on the example document. -/
theorem lda_c6_witness :
    ((LDAExtractor.init exDoc 10 5).load_docx.preprocess).cleaned =
      [] ++ (loadParas exDoc).filterMap specNormalizePara :=
  (lda_c6 ((LDAExtractor.init exDoc 10 5).load_docx)).1

/-- C5: every term of the pruned vocabulary occurs in at least 2 and in
at most 85 percent of the cleaned documents, and every term violating
either bound is excluded. -/
theorem lda_c5 (docs : List Str) (h : isOkE (fit_transform docs) = true) :
    (∀ t ∈ vocabOf docs,
      2 ≤ docFreq docs t ∧ 20 * docFreq docs t ≤ 17 * docs.length) ∧
    (∀ t : Str, (docFreq docs t < 2 ∨ 17 * docs.length < 20 * docFreq docs t) →
      t ∉ vocabOf docs) := by
  rcases hft : fit_transform docs with e | ⟨dtm, names⟩
  · rw [hft] at h
    simp [isOkE] at h
  · have hnames := (fit_transform_ok hft).1
    have hvoc : vocabOf docs = names := by
      unfold vocabOf
      rw [hft]
    constructor
    · intro t ht
      rw [hvoc, hnames] at ht
      have := (List.mem_filter.mp ht).2
      rw [Bool.and_eq_true, decide_eq_true_eq, decide_eq_true_eq] at this
      exact this
    · intro t hbad hmem
      rw [hvoc, hnames] at hmem
      have := (List.mem_filter.mp hmem).2
      rw [Bool.and_eq_true, decide_eq_true_eq, decide_eq_true_eq] at this
      rcases hbad with hbad | hbad <;> omega

/-- Witness for C5 on the cleaned example corpus. -/
theorem lda_c5_witness :
    2 ≤ docFreq (cleanedCorpus exDoc) "zebra".data ∧
    20 * docFreq (cleanedCorpus exDoc) "zebra".data ≤
      17 * (cleanedCorpus exDoc).length :=
  (lda_c5 (cleanedCorpus exDoc) (by decide)).1 "zebra".data (by decide)

/-- C4: the pipeline is deterministic: two fresh instances with the same
parsed document, the same topic count and the same words-per-topic
produce identical results (fitting is a function of the matrix and `K`
because the random seed and the optimisation schedule are fixed). -/
theorem lda_c4 (fitC : List (List Nat) → Nat → List (List ℚ))
    (s t : LDAExtractor) (hfp : s.filepath = t.filepath)
    (hK : s.num_topics = t.num_topics) (hw : s.words_per_topic = t.words_per_topic)
    (hs : Fresh s) (ht : Fresh t) :
    s.run_pipeline fitC = t.run_pipeline fitC := by
  obtain ⟨h1, h2, h3⟩ := hs
  obtain ⟨h4, h5, h6⟩ := ht
  cases s
  cases t
  simp_all

/-- Witness for C4: two independently built fresh instances over the
example document give the same result. -/
theorem lda_c4_witness :
    LDAExtractor.run_pipeline constFit (LDAExtractor.init exDoc 3 5) =
    LDAExtractor.run_pipeline constFit
      { filepath := exDoc, num_topics := 3, words_per_topic := 5,
        paragraphs := [], cleaned := [], topics := [] } :=
  lda_c4 constFit _ _ rfl rfl rfl ⟨rfl, rfl, rfl⟩ ⟨rfl, rfl, rfl⟩

/-- Counterexample to C1 as stated: on the example document the cleaned
corpus has fewer than 50 documents, yet requesting `K = 50` completes
successfully (no `InvalidTopicCount`, no error at all). -/
theorem lda_c1_counterexample :
    (cleanedCorpus exDoc).length < 50 ∧
    isOkE (LDAExtractor.run_pipeline constFit (LDAExtractor.init exDoc 50 5)) = true := by
  constructor
  · decide
  · decide

/-- C1 amended: the fitting step performs no comparison of `K` with the
number of cleaned documents.  For every `K ≥ 1`, whenever the vectorizer
succeeds the pipeline completes and returns exactly `K` titles, even
when `K` exceeds the number of cleaned documents; no `InvalidTopicCount`
error exists (only `K < 1` is rejected, by parameter validation). -/
theorem lda_c1_amended (fitC : List (List Nat) → Nat → List (List ℚ))
    (hsh : FitShape fitC) (doc : List Str) (K w : Nat)
    (hK1 : 1 ≤ K) (hgt : (cleanedCorpus doc).length < K)
    (hvec : isOkE (fit_transform (cleanedCorpus doc)) = true) :
    isOkE (LDAExtractor.run_pipeline fitC (LDAExtractor.init doc K w)) = true ∧
    (okTitles (LDAExtractor.run_pipeline fitC (LDAExtractor.init doc K w))).length
      = K := by
  rcases hft : fit_transform (cleanedCorpus doc) with e | ⟨dtm, names⟩
  · rw [hft] at hvec
    simp [isOkE] at hvec
  · have hrun := run_pipeline_ok fitC (LDAExtractor.init doc K w) dtm names
      (by rw [init_cleanedCorpus]; exact hft) (by simpa [LDAExtractor.init] using hK1)
    rw [hrun]
    refine ⟨rfl, ?_⟩
    simp only [okTitles, LDAExtractor.init, List.nil_append, List.length_map]
    exact (hsh dtm K).1

/-- Witness for the amended C1: the example document yields 3 cleaned
documents, and requesting 50 topics returns 50 titles. -/
theorem lda_c1_witness :
    isOkE (LDAExtractor.run_pipeline constFit (LDAExtractor.init exDoc 50 5)) = true ∧
    (okTitles (LDAExtractor.run_pipeline constFit (LDAExtractor.init exDoc 50 5))).length
      = 50 :=
  lda_c1_amended constFit
    constFit_shape
    exDoc 50 5 (by omega) (by decide) (by decide)

/-- C2: under valid input (`1 ≤ K` and `K` at most the number of cleaned
documents, vectorizer successful) the pipeline returns exactly `K`
titles, the list of titles is the row-wise image of the fitted topic
matrix, and title `i` is derived from topic row `i`; the sequence is
never silently truncated. -/
theorem lda_c2 (fitC : List (List Nat) → Nat → List (List ℚ))
    (hsh : FitShape fitC) (doc : List Str) (K w : Nat)
    (hK1 : 1 ≤ K) (hKle : K ≤ (cleanedCorpus doc).length)
    (hok : isOkE (LDAExtractor.run_pipeline fitC (LDAExtractor.init doc K w)) = true) :
    (okTitles (LDAExtractor.run_pipeline fitC (LDAExtractor.init doc K w))).length
      = K ∧
    okTitles (LDAExtractor.run_pipeline fitC (LDAExtractor.init doc K w)) =
      (fitC (dtmOf (cleanedCorpus doc)) K).map
        (topicTitle w (vocabOf (cleanedCorpus doc))) ∧
    (∀ i, i < K →
      (okTitles (LDAExtractor.run_pipeline fitC (LDAExtractor.init doc K w))).getD i []
        = topicTitle w (vocabOf (cleanedCorpus doc))
            ((fitC (dtmOf (cleanedCorpus doc)) K).getD i [])) := by
  obtain ⟨dtm, names, hft, -⟩ :=
    run_pipeline_ok_inv fitC (LDAExtractor.init doc K w) hok
  rw [init_cleanedCorpus] at hft
  have hvoc : vocabOf (cleanedCorpus doc) = names := by
    unfold vocabOf
    rw [hft]
  have hdtm : dtmOf (cleanedCorpus doc) = dtm := by
    unfold dtmOf
    rw [hft]
  have hrun := run_pipeline_ok fitC (LDAExtractor.init doc K w) dtm names
    (by rw [init_cleanedCorpus]; exact hft) (by simpa [LDAExtractor.init] using hK1)
  rw [hrun, hvoc, hdtm]
  have hlen : ((fitC dtm K).map (topicTitle w names)).length = K := by
    rw [List.length_map]
    exact (hsh dtm K).1
  refine ⟨by simpa [okTitles, LDAExtractor.init] using hlen, by simp [okTitles, LDAExtractor.init], ?_⟩
  intro i hi
  simp only [okTitles, LDAExtractor.init, List.nil_append]
  exact map_getD (topicTitle w names) [] ([] : List ℚ) (by rw [(hsh dtm K).1]; exact hi)

/-- Witness for C2 on the example document with `K = 2`. -/
theorem lda_c2_witness :
    (okTitles (LDAExtractor.run_pipeline constFit (LDAExtractor.init exDoc 2 5))).length
      = 2 :=
  (lda_c2 constFit
    constFit_shape
    exDoc 2 5 (by omega) (by decide) (by decide)).1

/-- C8: a document in which no paragraph survives length filtering (and
in general any run whose cleaned corpus is empty, or is nonempty but
yields no vocabulary term satisfying the document-frequency bounds)
makes the pipeline fail with the corresponding vectorizer error — the
`ValueError` family the specification calls InsufficientContent — and a
successful run never returns an empty title sequence. -/
theorem lda_c8 (fitC : List (List Nat) → Nat → List (List ℚ))
    (hsh : FitShape fitC) (doc : List Str) (K w : Nat) :
    (loadParas doc = [] →
      LDAExtractor.run_pipeline fitC (LDAExtractor.init doc K w)
        = .error .emptyVocabulary) ∧
    (cleanedCorpus doc = [] →
      LDAExtractor.run_pipeline fitC (LDAExtractor.init doc K w)
        = .error .emptyVocabulary) ∧
    (∀ e, fit_transform (cleanedCorpus doc) = .error e →
      LDAExtractor.run_pipeline fitC (LDAExtractor.init doc K w) = .error e) ∧
    ((∀ t ∈ rawVocabulary (cleanedCorpus doc),
        ¬(2 ≤ docFreq (cleanedCorpus doc) t ∧
          20 * docFreq (cleanedCorpus doc) t ≤ 17 * (cleanedCorpus doc).length)) →
      ∃ e, fit_transform (cleanedCorpus doc) = .error e ∧
        LDAExtractor.run_pipeline fitC (LDAExtractor.init doc K w) = .error e) ∧
    (isOkE (LDAExtractor.run_pipeline fitC (LDAExtractor.init doc K w)) = true →
      okTitles (LDAExtractor.run_pipeline fitC (LDAExtractor.init doc K w)) ≠ []) := by
  have hprop : ∀ e, fit_transform (cleanedCorpus doc) = .error e →
      LDAExtractor.run_pipeline fitC (LDAExtractor.init doc K w) = .error e := by
    intro e he
    apply run_pipeline_error
    rw [init_cleanedCorpus]
    exact he
  have hempty : cleanedCorpus doc = [] →
      LDAExtractor.run_pipeline fitC (LDAExtractor.init doc K w)
        = .error .emptyVocabulary := by
    intro h
    apply hprop
    rw [h]
    rfl
  refine ⟨?_, hempty, hprop, ?_, ?_⟩
  · intro h
    apply hempty
    unfold cleanedCorpus
    rw [h]
    rfl
  · intro hterm
    rcases hft : fit_transform (cleanedCorpus doc) with e | ⟨dtm, names⟩
    · exact ⟨e, rfl, hprop e hft⟩
    · exfalso
      obtain ⟨hnames_eq, hne, -, -⟩ := fit_transform_ok hft
      obtain ⟨nm, hnm⟩ := List.exists_mem_of_ne_nil names hne
      rw [hnames_eq] at hnm
      have h2 := (List.mem_filter.mp hnm).2
      rw [Bool.and_eq_true, decide_eq_true_eq, decide_eq_true_eq] at h2
      exact hterm nm (List.mem_filter.mp hnm).1 h2
  · intro hok
    obtain ⟨dtm, names, hft, hK1⟩ :=
      run_pipeline_ok_inv fitC (LDAExtractor.init doc K w) hok
    have hrun := run_pipeline_ok fitC (LDAExtractor.init doc K w) dtm names hft hK1
    rw [hrun]
    simp only [okTitles, LDAExtractor.init, List.nil_append]
    intro heq
    have hlen := congrArg List.length heq
    rw [List.length_map, (hsh dtm K).1] at hlen
    simp only [List.length_nil] at hlen
    have hK1p : 1 ≤ K := by simpa [LDAExtractor.init] using hK1
    omega

/-- Witness for C8: a document whose only paragraph is 12 characters
long fails with the empty-vocabulary error; a document with exactly one
cleaned paragraph fails with the max_df/min_df error; a three-paragraph
document whose paragraphs share no term fails with the after-pruning
error. -/
theorem lda_c8_witness :
    LDAExtractor.run_pipeline constFit (LDAExtractor.init exShortDoc 10 5)
      = .error .emptyVocabulary ∧
    LDAExtractor.run_pipeline constFit (LDAExtractor.init exOneParaDoc 10 5)
      = .error .maxDfLtMinDf ∧
    LDAExtractor.run_pipeline constFit (LDAExtractor.init exDistinctDoc 10 5)
      = .error .afterPruning :=
  ⟨(lda_c8 constFit constFit_shape exShortDoc 10 5).1 (by decide),
   (lda_c8 constFit constFit_shape exOneParaDoc 10 5).2.2.1 .maxDfLtMinDf (by rfl),
   (lda_c8 constFit constFit_shape exDistinctDoc 10 5).2.2.1 .afterPruning (by rfl)⟩

/-- Counterexample to C3 as stated: on a row of six equal weights over
six vocabulary terms, the labeler does NOT prefer the lowest vocabulary
index on ties.  The claimed rule selects indices `0..4` and yields
`"Aa Bb Cc Dd Ee"`, but the code (the last five entries of the
ascending stable argsort, reversed) selects indices `5,4,3,2,1` and
yields `"Ff Ee Dd Cc Bb"`. -/
theorem lda_c3_counterexample :
    topicTitle 5 names6 eqRow6 ≠ specTitleLow 5 names6 eqRow6 ∧
    topicTitle 5 names6 eqRow6 = "Ff Ee Dd Cc Bb".data ∧
    specTitleLow 5 names6 eqRow6 = "Aa Bb Cc Dd Ee".data := by
  refine ⟨by decide, by decide, by decide⟩

/-- C3 amended: for every topic row (over a vocabulary of at most 16
terms, where numpy's argsort is a stable insertion sort) the labeler
selects the `words_per_topic` highest-weight entries breaking ties by
vocabulary index with the HIGHEST index preferred, orders the selected
terms by descending weight (descending index on equal weights) so the
highest-weight term appears first, joins them with single spaces and
title-cases the result. -/
theorem lda_c3_amended (w : Nat) (names : List Str) (t : List ℚ)
    (hw : 1 ≤ w) (h16 : t.length ≤ 16) :
    topicTitle w names t = specTitleHi w names t := by
  unfold topicTitle specTitleHi
  rw [← List.map_reverse, tailSlice_npArgsort_reverse hw t]

/-- Witness for the amended C3 at the counterexample row. -/
theorem lda_c3_witness :
    topicTitle 5 names6 eqRow6 = specTitleHi 5 names6 eqRow6 :=
  lda_c3_amended 5 names6 eqRow6 (by omega) (by decide)

/-- C10: running the pipeline twice on the same instance is not
idempotent.  The second run duplicates the cleaned corpus (preprocess
appends to `self.cleaned` without resetting it) and returns `2K` titles
whose first `K` entries are the first run's titles (extract_topics
appends to `self.topics` without resetting it), rather than the `K`
titles a fresh instance returns. -/
theorem lda_c10 (fitC : List (List Nat) → Nat → List (List ℚ))
    (hsh : FitShape fitC) (doc : List Str) (K w : Nat)
    (h1 : isOkE (LDAExtractor.run_pipeline fitC (LDAExtractor.init doc K w)) = true)
    (h2 : isOkE (LDAExtractor.run_pipeline fitC
      (okState (LDAExtractor.run_pipeline fitC (LDAExtractor.init doc K w)))) = true) :
    (okState (LDAExtractor.run_pipeline fitC
        (okState (LDAExtractor.run_pipeline fitC (LDAExtractor.init doc K w))))).cleaned
      = (okState (LDAExtractor.run_pipeline fitC (LDAExtractor.init doc K w))).cleaned
        ++ (okState (LDAExtractor.run_pipeline fitC (LDAExtractor.init doc K w))).cleaned ∧
    (okTitles (LDAExtractor.run_pipeline fitC (LDAExtractor.init doc K w))).length = K ∧
    (okTitles (LDAExtractor.run_pipeline fitC
        (okState (LDAExtractor.run_pipeline fitC (LDAExtractor.init doc K w))))).length
      = 2 * K ∧
    (okTitles (LDAExtractor.run_pipeline fitC
        (okState (LDAExtractor.run_pipeline fitC (LDAExtractor.init doc K w))))).take K
      = okTitles (LDAExtractor.run_pipeline fitC (LDAExtractor.init doc K w)) ∧
    okTitles (LDAExtractor.run_pipeline fitC
        (okState (LDAExtractor.run_pipeline fitC (LDAExtractor.init doc K w))))
      ≠ okTitles (LDAExtractor.run_pipeline fitC (LDAExtractor.init doc K w)) := by
  obtain ⟨dtm, names, hft, hK1⟩ :=
    run_pipeline_ok_inv fitC (LDAExtractor.init doc K w) h1
  have hrun1 := run_pipeline_ok fitC (LDAExtractor.init doc K w) dtm names hft hK1
  rw [hrun1] at h2 ⊢
  simp only [okState, okTitles, LDAExtractor.init] at h2 ⊢
  obtain ⟨dtm2, names2, hft2, hK2⟩ := run_pipeline_ok_inv fitC _ h2
  have hrun2 := run_pipeline_ok fitC _ dtm2 names2 hft2 hK2
  dsimp only at hrun2
  rw [hrun2]
  simp only [okState, okTitles]
  have hlen1 : ((fitC dtm K).map (topicTitle w names)).length = K := by
    rw [List.length_map]
    exact (hsh dtm K).1
  have hlen2 : ((fitC dtm2 K).map (topicTitle w names2)).length = K := by
    rw [List.length_map]
    exact (hsh dtm2 K).1
  have hK1' : 1 ≤ K := hK1
  refine ⟨?_, ?_, ?_, ?_, ?_⟩
  · show preprocessLoop (preprocessLoop [] (loadParas doc)) (loadParas doc) = _
    rw [preprocessLoop_append]
  · simpa using hlen1
  · simp only [List.nil_append, List.length_append]
    rw [hlen1, hlen2]
    omega
  · simp only [List.nil_append]
    exact List.take_left' hlen1
  · simp only [List.nil_append]
    intro heq
    have hcontra := congrArg List.length heq
    rw [List.length_append, hlen1, hlen2] at hcontra
    omega

/-- Witness for C10: on the example document with `K = 2` the second run
on the same instance returns 4 titles whose first 2 are the first run's
titles. -/
theorem lda_c10_witness :
    (okTitles (LDAExtractor.run_pipeline constFit
        (okState (LDAExtractor.run_pipeline constFit
          (LDAExtractor.init exDoc 2 5))))).length = 2 * 2 :=
  (lda_c10 constFit constFit_shape exDoc 2 5 (by decide) (by decide)).2.2.1

theorem joinSp_ne_nil {ws : List Str} (h1 : ws ≠ []) (h2 : ∀ u ∈ ws, u ≠ []) :
    joinSp ws ≠ [] := by
  obtain ⟨u, us, rfl⟩ := List.exists_cons_of_ne_nil h1
  cases us with
  | nil => simpa [joinSp_single] using h2 u (by simp)
  | cons v vs =>
      rw [joinSp_cons_cons]
      intro heq
      exact absurd (List.append_eq_nil.mp heq).2 (by simp)

theorem dtm_head_length {docs : List Str} {dtm : List (List Nat)} {names : List Str}
    (h : fit_transform docs = .ok (dtm, names)) :
    (dtm.headD []).length = names.length := by
  obtain ⟨-, -, hlen, hdtm⟩ := fit_transform_ok h
  have hne : docs ≠ [] := by
    intro heq
    rw [heq] at hlen
    simp at hlen
  obtain ⟨d, ds, rfl⟩ := List.exists_cons_of_ne_nil hne
  rw [hdtm]
  simp

theorem tailSlice_all {α : Type} {w : Nat} {l : List α} (hw : 1 ≤ w)
    (hlt : l.length < w) : tailSlice w l = l := by
  unfold tailSlice
  rw [if_neg (by omega)]
  have h0 : l.length - w = 0 := by omega
  rw [h0, List.drop_zero]

/-- C9: in every successful run, every produced title is non-empty,
has at most `words_per_topic` space-separated words, each word starts
with an uppercase letter, each word lowercased is a vocabulary term,
and when the vocabulary has fewer than `words_per_topic` terms the
title uses all vocabulary terms (and is accepted, not an error). -/
theorem lda_c9 (fitC : List (List Nat) → Nat → List (List ℚ))
    (hsh : FitShape fitC) (doc : List Str) (K w : Nat) (hw : 1 ≤ w)
    (hok : isOkE (LDAExtractor.run_pipeline fitC (LDAExtractor.init doc K w)) = true) :
    ∀ title ∈ okTitles (LDAExtractor.run_pipeline fitC (LDAExtractor.init doc K w)),
      title ≠ [] ∧
      (pySplitWs title).length ≤ w ∧
      (∀ word ∈ pySplitWs title, word ≠ [] ∧ word.headD ' ' ∈ upperAlpha ∧
        pyLower word ∈ vocabOf (cleanedCorpus doc)) ∧
      ((vocabOf (cleanedCorpus doc)).length < w →
        ((pySplitWs title).map pyLower).Perm (vocabOf (cleanedCorpus doc))) := by
  obtain ⟨dtm, names, hft, hK1⟩ :=
    run_pipeline_ok_inv fitC (LDAExtractor.init doc K w) hok
  rw [init_cleanedCorpus] at hft
  have hvoc : vocabOf (cleanedCorpus doc) = names := by
    unfold vocabOf
    rw [hft]
  have hnmall : ∀ nm ∈ names, nm ≠ [] ∧ ∀ c ∈ nm, c ∈ lowerAlpha := by
    intro nm hnm
    have hmemraw : nm ∈ rawVocabulary (cleanedCorpus doc) := by
      have h1 := (fit_transform_ok hft).1
      rw [h1] at hnm
      exact (List.mem_filter.mp hnm).1
    exact vocab_chars (cleaned_chars (loadParas doc)) hmemraw
  have hnames_ne : names ≠ [] := (fit_transform_ok hft).2.1
  have hrun := run_pipeline_ok fitC (LDAExtractor.init doc K w) dtm names
    (by rw [init_cleanedCorpus]; exact hft) hK1
  rw [hrun]
  simp only [okTitles, LDAExtractor.init, List.nil_append]
  intro title htitle
  obtain ⟨row, hrow, rfl⟩ := List.mem_map.mp htitle
  have hrowlen : row.length = names.length := by
    rw [(hsh dtm _).2 row hrow]
    exact dtm_head_length hft
  obtain ⟨sel, htitle_eq, hsplit, hselmem, hsellen, hselperm⟩ :=
    topicTitle_words hw hnames_ne hrowlen hnmall
  have hselne : ∀ u ∈ sel, u ≠ [] := fun u hu => (hnmall u (hselmem u hu)).1
  have hnpos : 0 < names.length := List.length_pos.mpr hnames_ne
  refine ⟨?_, ?_, ?_, ?_⟩
  · rw [htitle_eq]
    apply joinSp_ne_nil
    · have hlp : 1 ≤ sel.length := by
        rw [hsellen, hrowlen]
        omega
      intro heq
      have hlen0 := congrArg List.length heq
      rw [List.length_map] at hlen0
      simp only [List.length_nil] at hlen0
      omega
    · intro u hu
      obtain ⟨v, hv, rfl⟩ := List.mem_map.mp hu
      exact capFirst_ne_nil (hselne v hv)
  · rw [hsplit, List.length_map, hsellen, hrowlen]
    omega
  · intro word hword
    rw [hsplit] at hword
    obtain ⟨u, hu, rfl⟩ := List.mem_map.mp hword
    have hu' := hnmall u (hselmem u hu)
    obtain ⟨c0, cs0, rfl⟩ := List.exists_cons_of_ne_nil hu'.1
    refine ⟨capFirst_ne_nil (by simp), ?_, ?_⟩
    · show ((pyUpperChar c0 :: cs0).headD ' ') ∈ upperAlpha
      exact pyUpperChar_mem_upper (hu'.2 c0 (by simp))
    · rw [hvoc, pyLower_capFirst (by simp) hu'.2]
      exact hselmem _ hu
  · intro hlt
    rw [hvoc] at hlt ⊢
    rw [hsplit]
    have hmapsimp : (sel.map capFirst).map pyLower = sel := by
      rw [List.map_map]
      have hcong : ∀ u ∈ sel, (pyLower ∘ capFirst) u = u := by
        intro u hu
        have hu' := hnmall u (hselmem u hu)
        show pyLower (capFirst u) = u
        exact pyLower_capFirst hu'.1 hu'.2
      rw [List.map_congr_left hcong]
      simp
    rw [hmapsimp]
    refine hselperm.trans ?_
    rw [tailSlice_all hw (by rw [npArgsort_length, hrowlen]; exact hlt)]
    refine ((npArgsort_perm row).map _).trans ?_
    rw [hrowlen, map_getD_range]

/-- Witness for C9 on the example document: the first produced title has
at most 5 words. -/
theorem lda_c9_witness :
    (pySplitWs ("Zebra Quartz Mango Falcon".data)).length ≤ 5 :=
  ((lda_c9 constFit constFit_shape exDoc 2 5 (by omega) (by decide))
    ("Zebra Quartz Mango Falcon".data) (by decide)).2.1
